import Mathlib

set_option maxRecDepth 100000

/-
Shallow embedding of the memoizing Fibonacci evaluator from
`src/11.10 — Recursion (vsCode)/main.cpp`.

Machine arithmetic is modelled explicitly:
  * `std::size_t` values are `Nat` taken modulo `2 ^ 64` wherever the source
    performs `size_t` arithmetic;
  * the cache is a `std::vector<int>`, so stored values pass through a
    32-bit two's-complement narrowing (`toInt32`) on `push_back` and are
    widened back to `size_t` (`toSizeT`) when returned;
  * `operator[]` out of range is undefined behavior in C++; the embedding
    returns `none` for such an access.
The static local cache becomes an explicit state argument threaded through
the calls.
-/

def UINT64 : Nat := 2 ^ 64

def UINT32 : Nat := 2 ^ 32

/-- Conversion of a `size_t` value to a C++ `int`: two's-complement wrap to
32 bits (implementation-defined pre-C++20, wrapping on all mainstream
implementations and defined as such since C++20). -/
def toInt32 (v : Nat) : Int :=
  if v % UINT32 < 2 ^ 31 then ((v % UINT32 : Nat) : Int)
  else ((v % UINT32 : Nat) : Int) - (UINT32 : Int)

/-- Conversion of an `int` value to `size_t`: reduction modulo `2 ^ 64`,
which sign-extends negative values. -/
def toSizeT (i : Int) : Nat := (i % (UINT64 : Int)).toNat

/-- Subtraction on `size_t`: `x - k` wraps modulo `2 ^ 64`. -/
def sizeSub (x k : Nat) : Nat := (x + (UINT64 - k)) % UINT64

/-- Naive recursive Fibonacci on `size_t`, from `Fibonacci` in
`main.cpp` (lines 32-44): `0` and `1` are the base cases, otherwise
`Fibonacci(x-1) + Fibonacci(x-2)` with `size_t` (mod `2 ^ 64`) addition. -/
def Fibonacci : Nat → Nat
  | 0 => 0
  | 1 => 1
  | n + 2 => (Fibonacci (n + 1) + Fibonacci n) % UINT64

/-- The initial contents of the static cache: `std::vector<int> results{0, 1}`. -/
def initResults : List Int := [0, 1]

/-- `Fibonacci_memoized_version` from `main.cpp` (lines 47-60), with the
static vector `results` made an explicit state argument.  The guard is
`x < static_cast<int>(std::size(results))` — the length is narrowed to `int`
and then widened back to `size_t` for the comparison.  On a hit the cached
`int` is returned widened to `size_t`; on a miss the value
`Fibonacci(x - 1) + Fibonacci(x - 2)` (naive calls, `size_t` arithmetic) is
narrowed to `int`, appended, and `results[x]` is read back — an access that
is out of bounds (hence `none`) whenever `x` exceeds the new length. -/
def Fibonacci_memoized_version (x : Nat) (results : List Int) :
    Option Nat × List Int :=
  if x < toSizeT (toInt32 (results.length % UINT64)) then
    ((results.get? x).map toSizeT, results)
  else
    let results2 :=
      results ++ [toInt32 ((Fibonacci (sizeSub x 1) + Fibonacci (sizeSub x 2)) % UINT64)]
    ((results2.get? x).map toSizeT, results2)

/-- Run a sequence of calls to the memoized evaluator, returning the final
cache state. -/
def runCalls : List Nat → List Int → List Int
  | [], s => s
  | x :: xs, s => runCalls xs (Fibonacci_memoized_version x s).2

/-- The value returned by `Fibonacci_memoized_version n` when the calls
`0, 1, ..., n` are made in order on one evaluator starting from the fresh
cache — the call pattern of `main` (the loop over `i < 20`). -/
def seqVal (n : Nat) : Option Nat :=
  (Fibonacci_memoized_version n (runCalls (List.range n) initResults)).1

/-- Number of invocations of the naive `Fibonacci` (counting the call
itself) incurred by evaluating `Fibonacci x`. -/
def FibCalls : Nat → Nat
  | 0 => 1
  | 1 => 1
  | n + 2 => 1 + FibCalls (n + 1) + FibCalls n

/-- Number of invocations of `Fibonacci` with argument `k` incurred by
evaluating `Fibonacci n` (counting the root when `k = n`). -/
def FibCallsOn (k : Nat) : Nat → Nat
  | 0 => if k = 0 then 1 else 0
  | 1 => if k = 1 then 1 else 0
  | n + 2 => (if k = n + 2 then 1 else 0) + FibCallsOn k (n + 1) + FibCallsOn k n

/-- Number of new (non-cache-hit) evaluations performed by one call
`Fibonacci_memoized_version x` on state `s`: zero on a cache hit, and the
full cost of the two naive `Fibonacci` calls on a miss.  Mirrors the branch
structure of `Fibonacci_memoized_version`. -/
def evalNewCalls (x : Nat) (s : List Int) : Nat :=
  if x < toSizeT (toInt32 (s.length % UINT64)) then 0
  else FibCalls (sizeSub x 1) + FibCalls (sizeSub x 2)

/-- Iterative pair-based reference Fibonacci (exact, unbounded), used to
evaluate large Fibonacci numbers in proofs without exponential reduction. -/
def fibAux : Nat → Nat × Nat
  | 0 => (0, 1)
  | n + 1 => ((fibAux n).2, (fibAux n).1 + (fibAux n).2)

/-- Exact mathematical Fibonacci via `fibAux`. -/
def fibRef (n : Nat) : Nat := (fibAux n).1

/-- The cache state holding the first `n` (narrowed) Fibonacci values. -/
def goodCache (n : Nat) : List Int :=
  (List.range n).map (fun k => toInt32 (Fibonacci k))

/-- A cache state is coherent when every populated entry holds the
(narrowed) naive Fibonacci value of its index. -/
@[reducible] def cacheOK (s : List Int) : Prop :=
  ∀ k, k < s.length → s.get? k = some (toInt32 (Fibonacci k))

/-- Modelled from the spec: the source takes `std::size_t`, so a negative
index is unrepresentable and no validation code exists in `src`; spec
sections 4.1 and 7 prescribe a single `InvalidArgument` error kind raised
synchronously for a negative requested index.  This error taxonomy is that
missing policy. -/
inductive EvalError where
  | InvalidArgument
deriving DecidableEq, Repr

/-- Modelled from the spec: the `evaluate` operation with the spec's
input-validation policy — reject a negative index with `InvalidArgument`,
otherwise defer to the source's `Fibonacci_memoized_version`. -/
def evaluateChecked (n : Int) (s : List Int) :
    Except EvalError (Option Nat × List Int) :=
  if n < 0 then Except.error EvalError.InvalidArgument
  else Except.ok (Fibonacci_memoized_version n.toNat s)

/-
Arithmetic facts about the conversions.
-/

lemma toInt32_small (v : Nat) (h : v < 2 ^ 31) : toInt32 v = (v : Int) := by
  have hv : v % UINT32 = v := Nat.mod_eq_of_lt (lt_trans h (by norm_num [UINT32]))
  unfold toInt32
  rw [hv, if_pos h]

lemma toSizeT_natCast (v : Nat) (h : v < UINT64) : toSizeT (v : Int) = v := by
  unfold toSizeT UINT64 at *
  omega

/-- The guard value `static_cast<int>(std::size(results))` read back as
`size_t` is exact while the length stays below `2 ^ 31`. -/
lemma castLen_eq (l : Nat) (h : l < 2 ^ 31) :
    toSizeT (toInt32 (l % UINT64)) = l := by
  have h64 : l % UINT64 = l := Nat.mod_eq_of_lt (lt_trans h (by norm_num [UINT64]))
  rw [h64, toInt32_small l h, toSizeT_natCast l (lt_trans h (by norm_num [UINT64]))]

/-- The cache-hit guard fires whenever the index is in bounds, for any
length a 32-bit narrowing can reach without aliasing the index. -/
lemma guard_of_lt (x l : Nat) (hx : x < l) (hl : l < UINT32) :
    x < toSizeT (toInt32 (l % UINT64)) := by
  have h64 : l % UINT64 = l :=
    Nat.mod_eq_of_lt (lt_trans hl (by norm_num [UINT32, UINT64]))
  rw [h64]
  by_cases h31 : l < 2 ^ 31
  · rw [toInt32_small l h31, toSizeT_natCast l (lt_trans h31 (by norm_num [UINT64]))]
    exact hx
  · have h32 : l % UINT32 = l := Nat.mod_eq_of_lt hl
    unfold toInt32 toSizeT
    rw [h32, if_neg h31]
    unfold UINT32 UINT64 at *
    norm_num at h31 ⊢
    omega

/-- The cache-hit guard does not fire when the index reaches the length,
for lengths below `2 ^ 31`. -/
lemma not_guard (x l : Nat) (hx : l ≤ x) (hl : l < 2 ^ 31) :
    ¬ x < toSizeT (toInt32 (l % UINT64)) := by
  rw [castLen_eq l hl]
  omega

lemma sizeSub_eq (x k : Nat) (hk : k ≤ x) (hx : x < UINT64) :
    sizeSub x k = x - k := by
  unfold sizeSub UINT64 at *
  omega

/-
The iterative reference Fibonacci and its relation to the source's naive
`Fibonacci`.
-/

lemma fibAux_snd (n : Nat) : (fibAux n).2 = fibRef (n + 1) := rfl

lemma fibRef_add (n : Nat) : fibRef (n + 2) = fibRef (n + 1) + fibRef n :=
  Nat.add_comm (fibAux n).1 (fibAux n).2

lemma fibAux_fst_le_snd (n : Nat) : (fibAux n).1 ≤ (fibAux n).2 := by
  induction n with
  | zero => decide
  | succ n _ => exact Nat.le_add_left _ _

lemma fibRef_le_succ (n : Nat) : fibRef n ≤ fibRef (n + 1) :=
  fibAux_fst_le_snd n

lemma fibRef_mono : Monotone fibRef :=
  monotone_nat_of_le_succ fibRef_le_succ

/-- The source's naive `Fibonacci` is the exact Fibonacci reduced modulo
`2 ^ 64`, as the additions are performed on `size_t`. -/
lemma Fibonacci_eq (n : Nat) : Fibonacci n = fibRef n % UINT64 := by
  induction n using Nat.twoStepInduction with
  | zero => decide
  | one => decide
  | more n ih1 ih2 =>
      show (Fibonacci (n + 1) + Fibonacci n) % UINT64 = fibRef (n + 2) % UINT64
      rw [ih1, ih2, ← Nat.add_mod, fibRef_add]

lemma Fibonacci_exact (n : Nat) (h : fibRef n < UINT64) :
    Fibonacci n = fibRef n := by
  rw [Fibonacci_eq, Nat.mod_eq_of_lt h]

lemma fibRef_lt_int (n : Nat) (h : n ≤ 46) : fibRef n < 2 ^ 31 :=
  lt_of_le_of_lt (fibRef_mono h) (by decide)

/-
Step lemmas for one call of the memoized evaluator.
-/

/-- A cache hit: the guard fires, the cached entry is returned widened,
and the state is unchanged. -/
lemma FMV_hit (x : Nat) (s : List Int) (hx : x < s.length)
    (hl : s.length < UINT32) :
    Fibonacci_memoized_version x s = ((s.get? x).map toSizeT, s) := by
  unfold Fibonacci_memoized_version
  rw [if_pos (guard_of_lt x s.length hx hl)]

/-- A cache miss exactly at the frontier (`x` equal to the length, at
least `2`): one entry holding `Fibonacci x` (narrowed) is appended and
returned. -/
lemma FMV_miss (x : Nat) (s : List Int) (hlen : s.length = x) (hx2 : 2 ≤ x)
    (hx : x < 2 ^ 31) :
    Fibonacci_memoized_version x s =
      (some (toSizeT (toInt32 (Fibonacci x))), s ++ [toInt32 (Fibonacci x)]) := by
  have hng : ¬ x < toSizeT (toInt32 (s.length % UINT64)) := by
    rw [hlen]; exact not_guard x x le_rfl hx
  have hU : x < UINT64 := lt_trans hx (by norm_num [UINT64])
  have h1 : sizeSub x 1 = x - 1 := sizeSub_eq x 1 (by omega) hU
  have h2 : sizeSub x 2 = x - 2 := sizeSub_eq x 2 hx2 hU
  have hfib : (Fibonacci (x - 1) + Fibonacci (x - 2)) % UINT64 = Fibonacci x := by
    obtain ⟨m, rfl⟩ : ∃ m, x = m + 2 := ⟨x - 2, by omega⟩
    rfl
  unfold Fibonacci_memoized_version
  rw [if_neg hng]
  simp only [h1, h2, hfib]
  rw [← hlen, List.get?_concat_length]
  rfl

/-- A cache miss at the frontier, without the `2 ≤ x` side condition: one
entry is appended (whatever the wrapped subtractions produce) and returned. -/
lemma FMV_miss_general (x : Nat) (s : List Int) (hlen : s.length = x)
    (h31 : x < 2 ^ 31) :
    Fibonacci_memoized_version x s =
      (some (toSizeT (toInt32 ((Fibonacci (sizeSub x 1) + Fibonacci (sizeSub x 2)) % UINT64))),
       s ++ [toInt32 ((Fibonacci (sizeSub x 1) + Fibonacci (sizeSub x 2)) % UINT64)]) := by
  subst hlen
  have hng : ¬ s.length < toSizeT (toInt32 (s.length % UINT64)) :=
    not_guard _ _ le_rfl h31
  unfold Fibonacci_memoized_version
  rw [if_neg hng]
  simp only [List.get?_concat_length, Option.map_some']

/-- The state after one call extends the state before it. -/
lemma FMV_extendsState (x : Nat) (s : List Int) :
    s <+: (Fibonacci_memoized_version x s).2 := by
  unfold Fibonacci_memoized_version
  by_cases h : x < toSizeT (toInt32 (s.length % UINT64))
  · rw [if_pos h]
  · rw [if_neg h]
    exact List.prefix_append s _

/-- The length after one call: unchanged on a hit, one more on a miss at
the frontier. -/
lemma FMV_length (x : Nat) (s : List Int) (hl : s.length < 2 ^ 31)
    (hx : x ≤ s.length) : x < (Fibonacci_memoized_version x s).2.length := by
  unfold Fibonacci_memoized_version
  by_cases h : x < toSizeT (toInt32 (s.length % UINT64))
  · rw [if_pos h]
    simp only []
    rw [castLen_eq s.length hl] at h
    exact h
  · rw [if_neg h]
    simp only [List.length_append, List.length_singleton]
    omega

/-
The sequential run of `main`: calls `0, 1, ..., n - 1` in order.
-/

lemma runCalls_append (a b : List Nat) (s : List Int) :
    runCalls (a ++ b) s = runCalls b (runCalls a s) := by
  induction a generalizing s with
  | nil => rfl
  | cons x xs ih =>
      simp only [List.cons_append, runCalls]
      exact ih _

lemma runCalls_extendsState (calls : List Nat) (s : List Int) :
    s <+: runCalls calls s := by
  induction calls generalizing s with
  | nil => exact List.prefix_refl s
  | cons x xs ih => exact (FMV_extendsState x s).trans (ih _)

lemma goodCache_length (n : Nat) : (goodCache n).length = n := by
  simp [goodCache]

lemma goodCache_succ (n : Nat) :
    goodCache (n + 1) = goodCache n ++ [toInt32 (Fibonacci n)] := by
  simp [goodCache, List.range_succ]

lemma goodCache_get (n k : Nat) (h : k < n) :
    (goodCache n).get? k = some (toInt32 (Fibonacci k)) := by
  simp [goodCache, List.get?_eq_getElem?, List.getElem?_map, List.getElem?_range h]

lemma goodCache_two : goodCache 2 = initResults := by decide

/-- After the in-order calls `0, ..., n - 1` from the fresh cache, the
cache holds exactly the narrowed Fibonacci values for the indices below
`max 2 n`. -/
lemma runCalls_range_eq (n : Nat) (h : n < 2 ^ 31) :
    runCalls (List.range n) initResults = goodCache (max 2 n) := by
  induction n with
  | zero => exact goodCache_two.symm
  | succ n ih =>
      rw [List.range_succ, runCalls_append, ih (by omega)]
      show (Fibonacci_memoized_version n (goodCache (max 2 n))).2 = goodCache (max 2 (n + 1))
      rcases Nat.lt_or_ge n 2 with hn | hn
      · have hmax : max 2 n = 2 := max_eq_left (by omega)
        have hmax2 : max 2 (n + 1) = 2 := max_eq_left (by omega)
        rw [hmax, hmax2, FMV_hit n (goodCache 2) (by rw [goodCache_length]; omega)
          (by rw [goodCache_length]; norm_num [UINT32])]
      · have hmax : max 2 n = n := max_eq_right hn
        have hmax2 : max 2 (n + 1) = n + 1 := max_eq_right (by omega)
        rw [hmax, hmax2,
          FMV_miss n (goodCache n) (goodCache_length n) hn (by omega),
          goodCache_succ]

/-- The value of the in-order call on `n`, for any `n` below `2 ^ 31` past
the base cases: the narrowed naive Fibonacci value, widened back. -/
lemma seqVal_eq_big (n : Nat) (h2 : 2 ≤ n) (h : n < 2 ^ 31) :
    seqVal n = some (toSizeT (toInt32 (Fibonacci n))) := by
  unfold seqVal
  rw [runCalls_range_eq n h, max_eq_right h2,
    FMV_miss n (goodCache n) (goodCache_length n) h2 h]

/-- Within the `int` range (`n ≤ 46`) the in-order call on `n` returns the
exact Fibonacci number. -/
lemma seqVal_fib (n : Nat) (h : n ≤ 46) : seqVal n = some (fibRef n) := by
  rcases Nat.lt_or_ge n 2 with hn | hn
  · interval_cases n <;> decide
  · rw [seqVal_eq_big n hn (by omega)]
    have hlt : fibRef n < 2 ^ 31 := fibRef_lt_int n h
    rw [Fibonacci_exact n (lt_trans hlt (by norm_num [UINT64])),
      toInt32_small _ hlt, toSizeT_natCast _ (lt_trans hlt (by norm_num [UINT64]))]

/-
Claim theorems.
-/

/-- C1 (amended): on the in-order call sequence of `main`, the memoized
evaluator satisfies the Fibonacci recurrence as long as the values fit the
`int` cache (`n ≤ 46`): the calls on `0` and `1` return `0` and `1`, and
for `2 ≤ n ≤ 46` the call on `n` returns the sum of the values returned
for `n - 1` and `n - 2`. -/
theorem memo_recurrence_int_range :
    seqVal 0 = some 0 ∧ seqVal 1 = some 1 ∧
    ∀ n : Nat, 2 ≤ n → n ≤ 46 →
      ∃ a b c : Nat, seqVal (n - 2) = some a ∧ seqVal (n - 1) = some b ∧
        seqVal n = some c ∧ c = a + b := by
  refine ⟨by decide, by decide, ?_⟩
  intro n h2 h46
  obtain ⟨m, rfl⟩ : ∃ m, n = m + 2 := ⟨n - 2, by omega⟩
  refine ⟨fibRef m, fibRef (m + 1), fibRef (m + 2), ?_, ?_, ?_, ?_⟩
  · simpa using seqVal_fib m (by omega)
  · simpa using seqVal_fib (m + 1) (by omega)
  · exact seqVal_fib (m + 2) h46
  · rw [fibRef_add, Nat.add_comm]

/-- C1 witness: concrete instance of the amended recurrence at `n = 2`. -/
theorem memo_recurrence_int_range_witness :
    (2 : Nat) ≤ 2 ∧ (2 : Nat) ≤ 46 ∧
    ∃ a b c : Nat, seqVal 0 = some a ∧ seqVal 1 = some b ∧
      seqVal 2 = some c ∧ c = a + b :=
  ⟨by decide, by decide, memo_recurrence_int_range.2.2 2 (by decide) (by decide)⟩

/-- C1 counterexample: the recurrence fails at `n = 47`.  The `int` cache
narrows `Fibonacci(47) = 2971215073` to the negative `int` `-1323752223`,
which the `size_t` return widens to `18446744072385799393`, while the
calls on `45` and `46` returned the exact values summing to `2971215073`. -/
theorem memo_recurrence_fails_at_47 :
    seqVal 45 = some 1134903170 ∧ seqVal 46 = some 1836311903 ∧
    seqVal 47 = some 18446744072385799393 ∧
    (18446744072385799393 : Nat) ≠ 1134903170 + 1836311903 := by
  refine ⟨?_, ?_, ?_, by decide⟩
  · rw [seqVal_fib 45 (by decide)]
    decide
  · rw [seqVal_fib 46 (by decide)]
    decide
  · rw [seqVal_eq_big 47 (by decide) (by decide)]
    have h47 : Fibonacci 47 = 2971215073 := by
      rw [Fibonacci_exact 47 (by decide)]
      decide
    rw [h47]
    decide

/-- C2 (code bug): with the indices `0..9` all cached (the state after the
in-order calls `0..9`), the call on `10` performs `176` naive `Fibonacci`
evaluations — the miss recurses through the unmemoized `Fibonacci`, not
through the cache — and the already cached index `8` (holding `21`) is
evaluated twice during that single call, so cached keys are recomputed and
the new-evaluation count is exponential rather than `O(n)`. -/
theorem memo_recomputes_cached_terms :
    evalNewCalls 10 (runCalls (List.range 10) initResults) = 176 ∧
    (runCalls (List.range 10) initResults).get? 8 = some 21 ∧
    FibCallsOn 8 (sizeSub 10 1) + FibCallsOn 8 (sizeSub 10 2) = 2 ∧
    10 + 1 < 176 := by decide

/-- C3 (code bug): from the fresh cache, `evaluate(10)` appends the single
entry `55` at index `2` and then reads `results[10]` out of bounds
(undefined behavior, `none` in the embedding) instead of returning `55`;
the following `evaluate(5)` is again an out-of-bounds miss that performs
`14` naive evaluations rather than a pure cache hit returning `5`. -/
theorem eval_ten_then_five_bug :
    Fibonacci_memoized_version 10 initResults = (none, [0, 1, 55]) ∧
    Fibonacci_memoized_version 5 [0, 1, 55] = (none, [0, 1, 55, 5]) ∧
    evalNewCalls 5 [0, 1, 55] = 14 := by decide

/-- C4 (code bug): calling `evaluate` on `0`, `1`, `2`, `5`, `10` in order
on one evaluator returns `0`, `1`, `1` as claimed, but the call on `5`
appends `5` at index `3` and then reads `results[5]` of the now 4-element
vector — out of bounds (undefined behavior) — instead of returning `5`. -/
theorem eval_scenario_bug :
    Fibonacci_memoized_version 0 initResults = (some 0, initResults) ∧
    Fibonacci_memoized_version 1 initResults = (some 1, initResults) ∧
    Fibonacci_memoized_version 2 initResults = (some 1, [0, 1, 1]) ∧
    Fibonacci_memoized_version 5 [0, 1, 1] = (none, [0, 1, 1, 5]) := by decide

/-- C5 (amended): every call grows the cache monotonically — the prior
state is a prefix of the new one — and the cached keys include
`{0, ..., n}` afterwards provided `n` was at most the cache length at
entry (keys of a vector are exactly the indices below its length). -/
theorem cache_growth_amended :
    ∀ (n : Nat) (s : List Int),
      s <+: (Fibonacci_memoized_version n s).2 ∧
      (s.length < 2 ^ 31 → n ≤ s.length →
        n < (Fibonacci_memoized_version n s).2.length) :=
  fun n s => ⟨FMV_extendsState n s, fun h31 hn => FMV_length n s h31 hn⟩

/-- C5 witness: the superset and key-coverage facts at `n = 2` on the
fresh cache. -/
theorem cache_growth_amended_witness :
    initResults <+: (Fibonacci_memoized_version 2 initResults).2 ∧
    2 < (Fibonacci_memoized_version 2 initResults).2.length :=
  ⟨(cache_growth_amended 2 initResults).1,
   (cache_growth_amended 2 initResults).2 (by decide) (by decide)⟩

/-- C5 counterexample: `evaluate(10)` on the fresh cache leaves a cache of
length `3` — the keys after the call are `{0, 1, 2}`, so neither `3` nor
`10` is cached, falsifying the unconditional `{0, ..., n}` coverage. -/
theorem cache_growth_counterexample :
    (Fibonacci_memoized_version 10 initResults).2.length = 3 ∧
    (Fibonacci_memoized_version 10 initResults).2.get? 3 = none ∧
    (Fibonacci_memoized_version 10 initResults).2.get? 10 = none := by decide

/-- C6 (amended): for `n` at most the cache length at entry, calling the
evaluator twice in succession returns the same value both times and the
second call leaves the cache unchanged; when `n` is already present the
call returns the cached value directly, with no state change and zero
naive evaluations. -/
theorem idempotent_amended :
    ∀ (n : Nat) (s : List Int), s.length < 2 ^ 31 → n ≤ s.length →
      (Fibonacci_memoized_version n (Fibonacci_memoized_version n s).2).1 =
        (Fibonacci_memoized_version n s).1 ∧
      (Fibonacci_memoized_version n (Fibonacci_memoized_version n s).2).2 =
        (Fibonacci_memoized_version n s).2 ∧
      (n < s.length →
        (Fibonacci_memoized_version n s).2 = s ∧ evalNewCalls n s = 0) := by
  intro n s h31 hn
  have h32 : s.length < UINT32 := lt_trans h31 (by norm_num [UINT32])
  rcases lt_or_eq_of_le hn with hlt | heq
  · have hh := FMV_hit n s hlt h32
    rw [hh]
    refine ⟨by rw [hh], by rw [hh], fun _ => ⟨rfl, ?_⟩⟩
    unfold evalNewCalls
    rw [if_pos (guard_of_lt n s.length hlt h32)]
  · have hm := FMV_miss_general n s heq.symm (by omega)
    rw [hm]
    have hlen2 : n < (s ++ [toInt32 ((Fibonacci (sizeSub n 1) + Fibonacci (sizeSub n 2)) % UINT64)]).length := by
      rw [List.length_append, List.length_singleton]
      omega
    have hlen32 : (s ++ [toInt32 ((Fibonacci (sizeSub n 1) + Fibonacci (sizeSub n 2)) % UINT64)]).length < UINT32 := by
      rw [List.length_append, List.length_singleton]
      unfold UINT32
      omega
    rw [FMV_hit n _ hlen2 hlen32]
    have hget : (s ++ [toInt32 ((Fibonacci (sizeSub n 1) + Fibonacci (sizeSub n 2)) % UINT64)]).get? n =
        some (toInt32 ((Fibonacci (sizeSub n 1) + Fibonacci (sizeSub n 2)) % UINT64)) := by
      rw [heq, List.get?_concat_length]
    rw [hget]
    exact ⟨rfl, rfl, fun hlt => absurd hlt (by omega)⟩

/-- C6 witness: the amended idempotence at `n = 2` on the cache `[0, 1, 1]`
(a hit, so the claim about direct cached return also fires). -/
theorem idempotent_amended_witness :
    (Fibonacci_memoized_version 2 (Fibonacci_memoized_version 2 [0, 1, 1]).2).1 =
      (Fibonacci_memoized_version 2 [0, 1, 1]).1 ∧
    (Fibonacci_memoized_version 2 (Fibonacci_memoized_version 2 [0, 1, 1]).2).2 =
      (Fibonacci_memoized_version 2 [0, 1, 1]).2 ∧
    (2 < ([0, 1, 1] : List Int).length →
      (Fibonacci_memoized_version 2 [0, 1, 1]).2 = [0, 1, 1] ∧
      evalNewCalls 2 [0, 1, 1] = 0) :=
  idempotent_amended 2 [0, 1, 1] (by decide) (by decide)

/-- C6 counterexample: with `n = 4` on the fresh cache both calls miss —
the first appends `3` (at index `2`), the second appends `3` again (at
index `3`) — so the second call does change the cache, falsifying the
unconditional idempotence. -/
theorem idempotent_counterexample :
    (Fibonacci_memoized_version 4 initResults).2 = [0, 1, 3] ∧
    (Fibonacci_memoized_version 4 (Fibonacci_memoized_version 4 initResults).2).2 =
      [0, 1, 3, 3] ∧
    ([0, 1, 3] : List Int) ≠ [0, 1, 3, 3] := by decide

/-- C7: across any sequence of calls, the cache before is a prefix of the
cache after — entries are only appended, never overwritten, altered or
removed — and in particular every already populated entry keeps its exact
value. -/
theorem cache_write_once :
    ∀ (calls : List Nat) (s : List Int),
      s <+: runCalls calls s ∧
      ∀ k, k < s.length → (runCalls calls s).get? k = s.get? k := by
  intro calls s
  refine ⟨runCalls_extendsState calls s, fun k hk => ?_⟩
  obtain ⟨t, ht⟩ := runCalls_extendsState calls s
  rw [← ht, List.get?_append hk]

/-- C7 witness: the calls `10` then `5` on the fresh cache extend it and
preserve the populated entry at key `1`. -/
theorem cache_write_once_witness :
    initResults <+: runCalls [10, 5] initResults ∧
    (runCalls [10, 5] initResults).get? 1 = initResults.get? 1 :=
  ⟨(cache_write_once [10, 5] initResults).1,
   (cache_write_once [10, 5] initResults).2 1 (by decide)⟩

/-- C8: modelled from the spec — `evaluateChecked` rejects every negative
index with the `InvalidArgument` error kind, synchronously, and on every
nonnegative index it raises no error and defers to the source's
`Fibonacci_memoized_version`. -/
theorem negative_input_invalid_argument :
    ∀ (n : Int) (s : List Int),
      (n < 0 → evaluateChecked n s = Except.error EvalError.InvalidArgument) ∧
      (0 ≤ n → evaluateChecked n s = Except.ok (Fibonacci_memoized_version n.toNat s)) := by
  intro n s
  constructor
  · intro h
    unfold evaluateChecked
    rw [if_pos h]
  · intro h
    unfold evaluateChecked
    rw [if_neg (not_lt.mpr h)]

/-- C8 witness: `-1` is rejected with `InvalidArgument` and `0` is not. -/
theorem negative_input_invalid_argument_witness :
    evaluateChecked (-1) initResults = Except.error EvalError.InvalidArgument ∧
    evaluateChecked 0 initResults = Except.ok (Fibonacci_memoized_version 0 initResults) :=
  ⟨(negative_input_invalid_argument (-1) initResults).1 (by decide),
   (negative_input_invalid_argument 0 initResults).2 (by decide)⟩

/-- C9 (amended): when the requested index is at most the number of cached
entries and the cache holds fewer than `2 ^ 31` entries — so the source's
`int` cast of the length is exact — every vector access of the call is in
bounds: the call returns a value, never the out-of-bounds marker. -/
theorem eval_access_in_bounds :
    ∀ (x : Nat) (s : List Int), s.length < 2 ^ 31 → x ≤ s.length →
      ((Fibonacci_memoized_version x s).1).isSome = true := by
  intro x s h31 hx
  rcases lt_or_eq_of_le hx with hlt | heq
  · rw [FMV_hit x s hlt (lt_trans h31 (by norm_num [UINT32]))]
    rw [List.get?_eq_get hlt]
    rfl
  · rw [FMV_miss_general x s heq.symm (by omega)]
    rfl

/-- C9 witness: the access safety at `x = 2` on the fresh two-entry cache. -/
theorem eval_access_in_bounds_witness :
    ((Fibonacci_memoized_version 2 initResults).1).isSome = true :=
  eval_access_in_bounds 2 initResults (by decide) (by decide)

/-- C9 counterexample: conditioning on the index alone is not enough.  On
a cache of exactly `2 ^ 31` entries with `x` equal to that length — the
claim's precondition `x ≤ ` number of cached entries holds — the source's
`static_cast<int>` of the length wraps to `-2 ^ 31`, the widened guard
value is `2 ^ 64 - 2 ^ 31`, so the hit branch fires and `results[2 ^ 31]`
is read out of bounds: the call returns the out-of-bounds marker. -/
theorem eval_access_oob_at_length_two_pow_31 :
    (2 : Nat) ^ 31 ≤ (List.replicate (2 ^ 31) (0 : Int)).length ∧
    (Fibonacci_memoized_version (2 ^ 31) (List.replicate (2 ^ 31) (0 : Int))).1 = none := by
  constructor
  · rw [List.length_replicate]
  · have hguard : (2 : Nat) ^ 31 <
        toSizeT (toInt32 ((List.replicate (2 ^ 31) (0 : Int)).length % UINT64)) := by
      rw [List.length_replicate]
      decide
    unfold Fibonacci_memoized_version
    rw [if_pos hguard,
      List.get?_eq_none.mpr (le_of_eq (List.length_replicate (2 ^ 31) (0 : Int)))]
    rfl

/-- C10 (amended): when every populated cache entry holds the narrowed
naive Fibonacci value of its index (as is the case whenever every earlier
call also met the precondition) and `x` is at most the cache length, the
memoized evaluator agrees with the naive `Fibonacci`: it returns
`Fibonacci x` as narrowed through the `int` cache — exactly `Fibonacci x`
whenever that value fits in `int` — and the coherence of the cache is
preserved. -/
theorem memo_agrees_with_naive_amended :
    ∀ (x : Nat) (s : List Int), cacheOK s → 2 ≤ s.length → s.length < 2 ^ 31 →
      x ≤ s.length →
      (Fibonacci_memoized_version x s).1 = some (toSizeT (toInt32 (Fibonacci x))) ∧
      cacheOK (Fibonacci_memoized_version x s).2 ∧
      (Fibonacci x < 2 ^ 31 →
        (Fibonacci_memoized_version x s).1 = some (Fibonacci x)) := by
  intro x s hOK h2 h31 hx
  have hval : (Fibonacci_memoized_version x s).1 = some (toSizeT (toInt32 (Fibonacci x))) ∧
      cacheOK (Fibonacci_memoized_version x s).2 := by
    rcases lt_or_eq_of_le hx with hlt | heq
    · rw [FMV_hit x s hlt (lt_trans h31 (by norm_num [UINT32]))]
      refine ⟨?_, hOK⟩
      rw [hOK x hlt]
      rfl
    · rw [FMV_miss x s heq.symm (by omega) (by omega)]
      refine ⟨rfl, fun k hk => ?_⟩
      rw [List.length_append, List.length_singleton] at hk
      rcases Nat.lt_or_ge k s.length with hk2 | hk2
      · rw [List.get?_append hk2]
        exact hOK k hk2
      · have hkx : k = s.length := by omega
        rw [hkx, List.get?_concat_length, heq]
  exact ⟨hval.1, hval.2, fun hsmall => by
    rw [hval.1, toInt32_small _ hsmall,
      toSizeT_natCast _ (lt_trans hsmall (by norm_num [UINT64]))]⟩

/-- C10 witness: the agreement at `x = 2` on the fresh cache, whose two
entries are coherent. -/
theorem memo_agrees_with_naive_amended_witness :
    (Fibonacci_memoized_version 2 initResults).1 =
      some (toSizeT (toInt32 (Fibonacci 2))) ∧
    cacheOK (Fibonacci_memoized_version 2 initResults).2 ∧
    (Fibonacci 2 < 2 ^ 31 →
      (Fibonacci_memoized_version 2 initResults).1 = some (Fibonacci 2)) :=
  memo_agrees_with_naive_amended 2 initResults (by decide) (by decide)
    (by decide) (by decide)

/-- C10 counterexample: `evaluate(4)` on the fresh cache appends the wrong
entry `3` at index `2` (the computed value belongs to index `4`); the next
call `evaluate(2)` — whose precondition `2 ≤ 3` holds at entry — then
returns `3`, while the naive `Fibonacci 2 = 1`. -/
theorem memo_agrees_counterexample :
    (Fibonacci_memoized_version 4 initResults).2 = [0, 1, 3] ∧
    (Fibonacci_memoized_version 2 [0, 1, 3]).1 = some 3 ∧
    Fibonacci 2 = 1 ∧ (3 : Nat) ≠ 1 := by decide

